import Mathlib

/-!
Shallow embedding of the audio-spectrum-live DSP core (rust-core/src):
window functions and FIR design (filters/windows.rs, filters/design.rs),
the time-domain FIR filter (filters/fir.rs), the FFT overlap-add filter
(filters/fast_fir.rs, with the external rustfft transform modelled as the
mathematical DFT), the noise gate (audio/gate.rs), the spectrum analyzer
frequency axis (spectrum/fft.rs, spectrum/analysis.rs) and the processor
state updates (audio/processor.rs).  Rust f64 values are modelled as real
numbers; usize as Nat with the saturating casts made explicit.
-/

noncomputable section

open Finset

/-- Window function types (filters/windows.rs, `WindowType`). -/
inductive WindowType where
  | Hann
  | Hamming
  | Blackman
  | Rectangular
deriving DecidableEq, Repr

namespace WindowType

/-- Filter length from transition width (filters/windows.rs,
`WindowType::calculate_filter_length`).  Rust computes
`(a * PI / delta_omega).ceil() as usize` and bumps even results by one;
the `as usize` cast saturates negative values to zero, which `Int.toNat`
mirrors. -/
def calculate_filter_length (w : WindowType) (delta_omega : ℝ) : ℕ :=
  let a : ℝ :=
    match w with
    | .Hann => 8
    | .Hamming => 8
    | .Blackman => 12
    | .Rectangular => 4
  let m : ℕ := (⌈a * Real.pi / delta_omega⌉).toNat
  if m % 2 = 0 then m + 1 else m

/-- Mainlobe width factor (filters/windows.rs, `mainlobe_width_factor`). -/
def mainlobe_width_factor (w : WindowType) : ℝ :=
  match w with
  | .Hann => 8
  | .Hamming => 8
  | .Blackman => 12
  | .Rectangular => 4

end WindowType

/-- Value of the window at sample index `n` for a window of `length` samples
(filters/windows.rs, `generate_window`; the Rust loop body for each arm). -/
def windowValue (w : WindowType) (length : ℕ) (n : ℕ) : ℝ :=
  let m : ℝ := (length : ℝ)
  match w with
  | .Hann => 0.5 - 0.5 * Real.cos (2 * Real.pi * (n : ℝ) / (m - 1))
  | .Hamming => 0.54 - 0.46 * Real.cos (2 * Real.pi * (n : ℝ) / (m - 1))
  | .Blackman =>
      0.42 - 0.5 * Real.cos (2 * Real.pi * (n : ℝ) / (m - 1))
        + 0.08 * Real.cos (4 * Real.pi * (n : ℝ) / (m - 1))
  | .Rectangular => 1

/-- Window coefficient list (filters/windows.rs, `generate_window`). -/
def generate_window (w : WindowType) (length : ℕ) : List ℝ :=
  (List.range length).map (windowValue w length)

/-- Bandpass filter specification (filters/design.rs, `FilterSpec`). -/
structure FilterSpec where
  omega_p1 : ℝ
  omega_p2 : ℝ
  omega_s1 : ℝ
  omega_s2 : ℝ
  delta_omega : ℝ
  window_type : WindowType

namespace FilterSpec

/-- Custom bandpass spec (filters/design.rs, `FilterSpec::bandpass`):
stopband edges are derived from the passband edges and transition width. -/
def bandpass (omega_p1 omega_p2 delta_omega : ℝ) (window_type : WindowType) :
    FilterSpec :=
  { omega_p1 := omega_p1
    omega_p2 := omega_p2
    omega_s1 := omega_p1 - delta_omega / Real.pi
    omega_s2 := omega_p2 + delta_omega / Real.pi
    delta_omega := delta_omega
    window_type := window_type }

/-- Cutoff frequencies as transition-band midpoints
(filters/design.rs, `FilterSpec::cutoff_frequencies`). -/
def cutoff_frequencies (s : FilterSpec) : ℝ × ℝ :=
  ((s.omega_s1 + s.omega_p1) / 2, (s.omega_p2 + s.omega_s2) / 2)

end FilterSpec

/-- Ideal lowpass tap before windowing (filters/design.rs,
`design_lowpass_fir` loop body). -/
def lowpassIdeal (wc_rad center : ℝ) (n : ℕ) : ℝ :=
  let n_shifted : ℝ := (n : ℝ) - center
  if |n_shifted| < 1e-10 then wc_rad / Real.pi
  else Real.sin (wc_rad * n_shifted) / (Real.pi * n_shifted)

/-- Ideal highpass tap before windowing (filters/design.rs,
`design_highpass_fir` loop body). -/
def highpassIdeal (wc_rad center : ℝ) (n : ℕ) : ℝ :=
  let n_shifted : ℝ := (n : ℝ) - center
  if |n_shifted| < 1e-10 then 1 - wc_rad / Real.pi
  else -(Real.sin (wc_rad * n_shifted) / (Real.pi * n_shifted))

/-- Ideal bandpass tap before windowing (filters/design.rs,
`design_bandpass_fir` loop body). -/
def bandpassIdeal (wc1_rad wc2_rad center : ℝ) (n : ℕ) : ℝ :=
  let n_shifted : ℝ := (n : ℝ) - center
  if |n_shifted| < 1e-10 then (wc2_rad - wc1_rad) / Real.pi
  else Real.sin (wc2_rad * n_shifted) / (Real.pi * n_shifted)
    - Real.sin (wc1_rad * n_shifted) / (Real.pi * n_shifted)

/-- Lowpass FIR design (filters/design.rs, `design_lowpass_fir`). -/
def design_lowpass_fir (cutoff delta_omega : ℝ) (window_type : WindowType) :
    List ℝ :=
  let m := window_type.calculate_filter_length delta_omega
  let center : ℝ := ((m - 1 : ℕ) : ℝ) / 2
  (List.range m).map fun n =>
    lowpassIdeal (cutoff * Real.pi) center n * windowValue window_type m n

/-- Highpass FIR design (filters/design.rs, `design_highpass_fir`). -/
def design_highpass_fir (cutoff delta_omega : ℝ) (window_type : WindowType) :
    List ℝ :=
  let m := window_type.calculate_filter_length delta_omega
  let center : ℝ := ((m - 1 : ℕ) : ℝ) / 2
  (List.range m).map fun n =>
    highpassIdeal (cutoff * Real.pi) center n * windowValue window_type m n

/-- Bandpass FIR design (filters/design.rs, `design_bandpass_fir`). -/
def design_bandpass_fir (spec : FilterSpec) : List ℝ :=
  let m := spec.window_type.calculate_filter_length spec.delta_omega
  let wc := spec.cutoff_frequencies
  let center : ℝ := ((m - 1 : ℕ) : ℝ) / 2
  (List.range m).map fun n =>
    bandpassIdeal (wc.1 * Real.pi) (wc.2 * Real.pi) center n
      * windowValue spec.window_type m n

/-- The spec-side transition-width constant A for each window type, as the
claim lists it: 8 for Hann and Hamming, 12 for Blackman, 4 for Rectangular. -/
def specWindowA (w : WindowType) : ℝ :=
  match w with
  | .Hann => 8
  | .Hamming => 8
  | .Blackman => 12
  | .Rectangular => 4

/-- The spec-side rounding to the next odd integer. -/
def nextOddNat (n : ℕ) : ℕ := if n % 2 = 0 then n + 1 else n

lemma calculate_filter_length_pos (w : WindowType) (d : ℝ) :
    0 < w.calculate_filter_length d := by
  unfold WindowType.calculate_filter_length
  dsimp only
  split <;> omega

lemma ceil_mul_pi_div (a c : ℝ) (_hc : c ≠ 0) :
    a * Real.pi / (c * Real.pi) = a / c := by
  rw [mul_comm c Real.pi, ← div_div, mul_div_assoc, div_self Real.pi_ne_zero,
    mul_one]

lemma calc_len_hamming : WindowType.Hamming.calculate_filter_length
    (0.05 * Real.pi) = 161 := by
  unfold WindowType.calculate_filter_length
  have h1 : (8 : ℝ) * Real.pi / (0.05 * Real.pi) = 160 := by
    rw [ceil_mul_pi_div 8 0.05 (by norm_num)]
    norm_num
  have h2 : (⌈(160 : ℝ)⌉) = 160 := by norm_num
  simp only [h1, h2]
  decide

lemma calc_len_hann : WindowType.Hann.calculate_filter_length
    (0.05 * Real.pi) = 161 := by
  unfold WindowType.calculate_filter_length
  have h1 : (8 : ℝ) * Real.pi / (0.05 * Real.pi) = 160 := by
    rw [ceil_mul_pi_div 8 0.05 (by norm_num)]
    norm_num
  have h2 : (⌈(160 : ℝ)⌉) = 160 := by norm_num
  simp only [h1, h2]
  decide

lemma calc_len_blackman : WindowType.Blackman.calculate_filter_length
    (0.05 * Real.pi) = 241 := by
  unfold WindowType.calculate_filter_length
  have h1 : (12 : ℝ) * Real.pi / (0.05 * Real.pi) = 240 := by
    rw [ceil_mul_pi_div 12 0.05 (by norm_num)]
    norm_num
  have h2 : (⌈(240 : ℝ)⌉) = 240 := by norm_num
  simp only [h1, h2]
  decide

/-- C4: the filter length returned by `calculate_filter_length` is always odd
and equals the spec formula nextOdd(ceil(A·π/Δω)); for Δω = 0.05π the Hann
and Hamming lengths are 161 and the Blackman length is 241. -/
theorem filter_length_odd_and_formula :
    (∀ (w : WindowType) (d : ℝ), 0 < d →
      Odd (w.calculate_filter_length d) ∧
        w.calculate_filter_length d
          = nextOddNat (⌈specWindowA w * Real.pi / d⌉).toNat) ∧
    WindowType.Hann.calculate_filter_length (0.05 * Real.pi) = 161 ∧
    WindowType.Hamming.calculate_filter_length (0.05 * Real.pi) = 161 ∧
    WindowType.Blackman.calculate_filter_length (0.05 * Real.pi) = 241 := by
  refine ⟨fun w d _ => ⟨?_, ?_⟩, calc_len_hann, calc_len_hamming,
    calc_len_blackman⟩
  · unfold WindowType.calculate_filter_length
    dsimp only
    rw [Nat.odd_iff]
    split <;> omega
  · cases w <;> rfl

/-- C4 witness: instantiation at the Rectangular window with Δω = 1. -/
theorem filter_length_odd_and_formula_witness :
    Odd (WindowType.Rectangular.calculate_filter_length 1) ∧
      WindowType.Rectangular.calculate_filter_length 1
        = nextOddNat (⌈specWindowA WindowType.Rectangular * Real.pi / 1⌉).toNat :=
  filter_length_odd_and_formula.1 WindowType.Rectangular 1 one_pos

lemma cast_pred_sub (m i : ℕ) (hi : i < m) :
    ((m - 1 - i : ℕ) : ℝ) = (m : ℝ) - 1 - (i : ℝ) := by
  have h1 : 1 ≤ m := by omega
  have h2 : i ≤ m - 1 := by omega
  rw [Nat.cast_sub h2, Nat.cast_sub h1]
  norm_num

lemma windowValue_symm (w : WindowType) (m i : ℕ) (hi : i < m) :
    windowValue w m (m - 1 - i) = windowValue w m i := by
  by_cases hm : m = 1
  · subst hm
    have hi0 : i = 0 := by omega
    subst hi0
    rfl
  have hc : ((m - 1 - i : ℕ) : ℝ) = (m : ℝ) - 1 - (i : ℝ) :=
    cast_pred_sub m i hi
  have hne : (m : ℝ) - 1 ≠ 0 := by
    have h2 : (2 : ℝ) ≤ (m : ℝ) := by exact_mod_cast (by omega : 2 ≤ m)
    linarith
  have h2pi : Real.cos (2 * Real.pi * ((m : ℝ) - 1 - (i : ℝ)) / ((m : ℝ) - 1))
      = Real.cos (2 * Real.pi * (i : ℝ) / ((m : ℝ) - 1)) := by
    have harg : 2 * Real.pi * ((m : ℝ) - 1 - (i : ℝ)) / ((m : ℝ) - 1)
        = 2 * Real.pi - 2 * Real.pi * (i : ℝ) / ((m : ℝ) - 1) := by
      field_simp
      ring
    rw [harg, Real.cos_sub, Real.cos_two_pi, Real.sin_two_pi]
    ring
  have h4pi : Real.cos (4 * Real.pi * ((m : ℝ) - 1 - (i : ℝ)) / ((m : ℝ) - 1))
      = Real.cos (4 * Real.pi * (i : ℝ) / ((m : ℝ) - 1)) := by
    have harg : 4 * Real.pi * ((m : ℝ) - 1 - (i : ℝ)) / ((m : ℝ) - 1)
        = 4 * Real.pi - 4 * Real.pi * (i : ℝ) / ((m : ℝ) - 1) := by
      field_simp
      ring
    have hsplit : 4 * Real.pi - 4 * Real.pi * (i : ℝ) / ((m : ℝ) - 1)
        = 2 * Real.pi +
          (2 * Real.pi - 4 * Real.pi * (i : ℝ) / ((m : ℝ) - 1)) := by
      ring
    rw [harg, hsplit, Real.cos_add, Real.cos_two_pi, Real.sin_two_pi,
      Real.cos_sub, Real.cos_two_pi, Real.sin_two_pi]
    ring
  cases w <;>
    simp only [windowValue, hc, h2pi, h4pi]

lemma shifted_neg (m i : ℕ) (hi : i < m) :
    ((m - 1 - i : ℕ) : ℝ) - ((m - 1 : ℕ) : ℝ) / 2
      = -((i : ℝ) - ((m - 1 : ℕ) : ℝ) / 2) := by
  rw [cast_pred_sub m i hi, Nat.cast_sub (by omega : 1 ≤ m)]
  push_cast
  ring

lemma lowpassIdeal_symm (wc : ℝ) (m i : ℕ) (hi : i < m) :
    lowpassIdeal wc (((m - 1 : ℕ) : ℝ) / 2) (m - 1 - i)
      = lowpassIdeal wc (((m - 1 : ℕ) : ℝ) / 2) i := by
  unfold lowpassIdeal
  dsimp only
  rw [shifted_neg m i hi, abs_neg]
  by_cases h : |(i : ℝ) - ((m - 1 : ℕ) : ℝ) / 2| < 1e-10
  · simp [h]
  · simp only [h, if_false]
    rw [mul_neg, Real.sin_neg, mul_neg, neg_div_neg_eq]

lemma highpassIdeal_symm (wc : ℝ) (m i : ℕ) (hi : i < m) :
    highpassIdeal wc (((m - 1 : ℕ) : ℝ) / 2) (m - 1 - i)
      = highpassIdeal wc (((m - 1 : ℕ) : ℝ) / 2) i := by
  unfold highpassIdeal
  dsimp only
  rw [shifted_neg m i hi, abs_neg]
  by_cases h : |(i : ℝ) - ((m - 1 : ℕ) : ℝ) / 2| < 1e-10
  · simp [h]
  · simp only [h, if_false]
    rw [mul_neg, Real.sin_neg, mul_neg, neg_div_neg_eq]

lemma bandpassIdeal_symm (wc1 wc2 : ℝ) (m i : ℕ) (hi : i < m) :
    bandpassIdeal wc1 wc2 (((m - 1 : ℕ) : ℝ) / 2) (m - 1 - i)
      = bandpassIdeal wc1 wc2 (((m - 1 : ℕ) : ℝ) / 2) i := by
  unfold bandpassIdeal
  dsimp only
  rw [shifted_neg m i hi, abs_neg]
  by_cases h : |(i : ℝ) - ((m - 1 : ℕ) : ℝ) / 2| < 1e-10
  · simp [h]
  · simp only [h, if_false, mul_neg, Real.sin_neg, neg_div_neg_eq]

lemma getD_range_map (f : ℕ → ℝ) (m i : ℕ) (hi : i < m) :
    ((List.range m).map f).getD i 0 = f i := by
  have hlen : i < ((List.range m).map f).length := by simpa using hi
  rw [List.getD_eq_getElem _ _ hlen]
  simp

/-- C3/C5 helper: a design list built by mapping over a range has the
expected length. -/
lemma length_range_map (f : ℕ → ℝ) (m : ℕ) :
    ((List.range m).map f).length = m := by simp

/-- C5: for every filter kind (lowpass, highpass, bandpass) and every window
type, the designed coefficient sequence h of length M is symmetric about its
center: h[i] = h[M-1-i] for every index i. -/
theorem design_coefficients_symmetric
    (wt : WindowType) (cutoff d : ℝ) (spec : FilterSpec) (i : ℕ) :
    (i < (design_lowpass_fir cutoff d wt).length →
      (design_lowpass_fir cutoff d wt).getD i 0
        = (design_lowpass_fir cutoff d wt).getD
            ((design_lowpass_fir cutoff d wt).length - 1 - i) 0) ∧
    (i < (design_highpass_fir cutoff d wt).length →
      (design_highpass_fir cutoff d wt).getD i 0
        = (design_highpass_fir cutoff d wt).getD
            ((design_highpass_fir cutoff d wt).length - 1 - i) 0) ∧
    (i < (design_bandpass_fir spec).length →
      (design_bandpass_fir spec).getD i 0
        = (design_bandpass_fir spec).getD
            ((design_bandpass_fir spec).length - 1 - i) 0) := by
  refine ⟨fun hi => ?_, fun hi => ?_, fun hi => ?_⟩
  · unfold design_lowpass_fir at *
    dsimp only at *
    rw [length_range_map] at hi ⊢
    rw [getD_range_map _ _ _ hi, getD_range_map _ _ _ (by omega),
      lowpassIdeal_symm _ _ _ hi, windowValue_symm _ _ _ hi]
  · unfold design_highpass_fir at *
    dsimp only at *
    rw [length_range_map] at hi ⊢
    rw [getD_range_map _ _ _ hi, getD_range_map _ _ _ (by omega),
      highpassIdeal_symm _ _ _ hi, windowValue_symm _ _ _ hi]
  · unfold design_bandpass_fir at *
    dsimp only at *
    rw [length_range_map] at hi ⊢
    rw [getD_range_map _ _ _ hi, getD_range_map _ _ _ (by omega),
      bandpassIdeal_symm _ _ _ _ hi, windowValue_symm _ _ _ hi]

/-- C5 witness: instantiation at index 0 of a Rectangular lowpass design. -/
theorem design_coefficients_symmetric_witness :
    (design_lowpass_fir 1 1 WindowType.Rectangular).getD 0 0
      = (design_lowpass_fir 1 1 WindowType.Rectangular).getD
          ((design_lowpass_fir 1 1 WindowType.Rectangular).length - 1 - 0) 0 :=
  (design_coefficients_symmetric WindowType.Rectangular 1 1
    (FilterSpec.bandpass 0.4 0.6 1 WindowType.Rectangular) 0).1
    (by simpa [design_lowpass_fir] using
      calculate_filter_length_pos WindowType.Rectangular 1)

/-- Real-time FIR filter state (filters/fir.rs, `FirFilter`).  The `Vec`
delay line is modelled as a total function from slot index to value; the
code only ever touches slots below `length`. -/
structure FirFilter where
  coefficients : List ℝ
  state_buffer : ℕ → ℝ
  cursor : ℕ
  length : ℕ

namespace FirFilter

/-- Constructor (filters/fir.rs, `FirFilter::new`): zeroed ring buffer,
cursor at slot 0. -/
def new (coefficients : List ℝ) : FirFilter :=
  { coefficients := coefficients
    state_buffer := fun _ => 0
    cursor := 0
    length := coefficients.length }

/-- Coefficient update (filters/fir.rs, `FirFilter::update_coefficients`):
a length change reallocates and clears the delay line. -/
def update_coefficients (f : FirFilter) (coefficients : List ℝ) : FirFilter :=
  let new_length := coefficients.length
  if new_length ≠ f.length then
    { coefficients := coefficients
      state_buffer := fun _ => 0
      cursor := 0
      length := new_length }
  else
    { f with coefficients := coefficients }

/-- Single-sample processing (filters/fir.rs, `FirFilter::process_sample`):
write the input at the cursor, convolve against the ring buffer with
wrap-around reads, advance the cursor. -/
def process_sample (f : FirFilter) (input : ℝ) : FirFilter × ℝ :=
  let buf : ℕ → ℝ := fun i => if i = f.cursor then input else f.state_buffer i
  let output : ℝ :=
    ∑ k ∈ Finset.range f.coefficients.length,
      f.coefficients.getD k 0 * buf ((f.cursor + f.length - k) % f.length)
  ({ f with state_buffer := buf, cursor := (f.cursor + 1) % f.length },
    output)

/-- Block processing (filters/fir.rs, `FirFilter::process_block`): apply
`process_sample` to each input sample in order, collecting the outputs. -/
def process_block : FirFilter → List ℝ → FirFilter × List ℝ
  | f, [] => (f, [])
  | f, x :: xs =>
      let s := f.process_sample x
      let rest := s.1.process_block xs
      (rest.1, s.2 :: rest.2)

/-- State reset (filters/fir.rs, `FirFilter::reset`): the Rust code fills
the delay line with zeros and also sets `self.cursor = 0`. -/
def reset (f : FirFilter) : FirFilter :=
  { f with state_buffer := fun _ => 0, cursor := 0 }

end FirFilter

/-- C8 counterexample: the claim says `reset()` leaves the write cursor
unchanged, but after one processed sample the cursor is 1 while `reset()`
sets it back to 0. -/
theorem fir_reset_cursor_counterexample :
    ¬ ((((FirFilter.new [1, 1]).process_sample 1).1.reset).cursor
        = ((FirFilter.new [1, 1]).process_sample 1).1.cursor) := by
  simp [FirFilter.new, FirFilter.process_sample, FirFilter.reset]

/-- C8 amended: `reset()` zeroes every delay-line entry, sets the write
cursor back to slot 0 (rather than leaving it unchanged), and leaves the
coefficients unchanged. -/
theorem fir_reset_clears_buffer_and_cursor (f : FirFilter) :
    (∀ i, (f.reset).state_buffer i = 0) ∧
    (f.reset).cursor = 0 ∧
    (f.reset).coefficients = f.coefficients ∧
    (f.reset).length = f.length := by
  refine ⟨fun i => rfl, rfl, rfl, rfl⟩

/-- Noise gate state (audio/gate.rs, `NoiseGate`). -/
structure NoiseGate where
  threshold_db : ℝ
  attack_coeff : ℝ
  release_coeff : ℝ
  envelope : ℝ
  envelope_squared : ℝ
  rms_coeff : ℝ
  sample_rate : ℝ
  is_open : Bool

namespace NoiseGate

/-- Time constant to exponential smoothing coefficient (audio/gate.rs,
`NoiseGate::time_constant_to_coeff`). -/
def time_constant_to_coeff (time_ms sample_rate : ℝ) : ℝ :=
  let tau := time_ms / 1000
  Real.exp (-1 / (tau * sample_rate))

/-- Constructor (audio/gate.rs, `NoiseGate::new`): zero envelope state,
gate initially closed, 50 ms RMS smoothing. -/
def new (threshold_db attack_ms release_ms sample_rate : ℝ) : NoiseGate :=
  { threshold_db := threshold_db
    attack_coeff := time_constant_to_coeff attack_ms sample_rate
    release_coeff := time_constant_to_coeff release_ms sample_rate
    envelope := 0
    envelope_squared := 0
    rms_coeff := time_constant_to_coeff 50 sample_rate
    sample_rate := sample_rate
    is_open := false }

/-- In-place threshold update (audio/gate.rs, `NoiseGate::set_threshold`). -/
def set_threshold (g : NoiseGate) (threshold_db : ℝ) : NoiseGate :=
  { g with threshold_db := threshold_db }

/-- In-place attack update (audio/gate.rs, `NoiseGate::set_attack_time`). -/
def set_attack_time (g : NoiseGate) (attack_ms : ℝ) : NoiseGate :=
  { g with attack_coeff := time_constant_to_coeff attack_ms g.sample_rate }

/-- In-place release update (audio/gate.rs, `NoiseGate::set_release_time`). -/
def set_release_time (g : NoiseGate) (release_ms : ℝ) : NoiseGate :=
  { g with release_coeff := time_constant_to_coeff release_ms g.sample_rate }

/-- The smoothed RMS level in dB that `process_sample` computes after
folding one input sample into the squared-envelope accumulator
(audio/gate.rs, `NoiseGate::process_sample`, lines computing `level_db`). -/
def level_db_after (g : NoiseGate) (input : ℝ) : ℝ :=
  let input_squared := input * input
  let envelope_squared :=
    g.rms_coeff * g.envelope_squared + (1 - g.rms_coeff) * input_squared
  let rms := Real.sqrt envelope_squared
  20 * Real.logb 10 (rms + 1e-10)

/-- Per-sample gate processing (audio/gate.rs, `NoiseGate::process_sample`):
IIR squared-envelope update, dB level, 3 dB hysteresis decision, then
attack/release smoothing of the gain envelope applied to the input. -/
def process_sample (g : NoiseGate) (input : ℝ) : NoiseGate × ℝ :=
  let input_squared := input * input
  let envelope_squared :=
    g.rms_coeff * g.envelope_squared + (1 - g.rms_coeff) * input_squared
  let rms := Real.sqrt envelope_squared
  let level_db := 20 * Real.logb 10 (rms + 1e-10)
  let hysteresis_db : ℝ := 3
  let is_open : Bool :=
    if g.is_open then
      if level_db < g.threshold_db - hysteresis_db then false else g.is_open
    else
      if g.threshold_db ≤ level_db then true else g.is_open
  let target_gain : ℝ := if is_open then 1 else 0
  let coeff := if g.envelope < target_gain then g.attack_coeff
    else g.release_coeff
  let envelope := coeff * g.envelope + (1 - coeff) * target_gain
  ({ g with
      envelope_squared := envelope_squared
      envelope := envelope
      is_open := is_open },
    input * envelope)

/-- Block processing (audio/gate.rs, `NoiseGate::process_block`). -/
def process_block : NoiseGate → List ℝ → NoiseGate × List ℝ
  | g, [] => (g, [])
  | g, x :: xs =>
      let s := g.process_sample x
      let rest := s.1.process_block xs
      (rest.1, s.2 :: rest.2)

/-- Gate state reset (audio/gate.rs, `NoiseGate::reset`). -/
def reset (g : NoiseGate) : NoiseGate :=
  { g with envelope := 0, envelope_squared := 0, is_open := false }

end NoiseGate

/-- C6: hysteresis and initial state of the noise gate.  (1) An open gate
stays open on any sample whose resulting smoothed RMS level is at least
threshold − 3 dB; (2) a closed gate opens exactly when the level reaches
the threshold; (3) a freshly constructed gate is closed. -/
theorem gate_hysteresis_and_initial_state :
    (∀ (g : NoiseGate) (x : ℝ), g.is_open = true →
      g.threshold_db - 3 ≤ g.level_db_after x →
      ((g.process_sample x).1).is_open = true) ∧
    (∀ (g : NoiseGate) (x : ℝ), g.is_open = false →
      (((g.process_sample x).1).is_open = true ↔
        g.threshold_db ≤ g.level_db_after x)) ∧
    (∀ t a r s : ℝ, (NoiseGate.new t a r s).is_open = false) := by
  refine ⟨fun g x hopen hlev => ?_, fun g x hclosed => ?_,
    fun t a r s => rfl⟩
  · have hnl : ¬ (g.level_db_after x < g.threshold_db - 3) := not_lt.mpr hlev
    unfold NoiseGate.level_db_after at hnl
    unfold NoiseGate.process_sample
    dsimp only at hnl ⊢
    simp [hopen, hnl]
  · unfold NoiseGate.process_sample NoiseGate.level_db_after
    dsimp only
    by_cases hc : g.threshold_db ≤ 20 * Real.logb 10
        (Real.sqrt (g.rms_coeff * g.envelope_squared
          + (1 - g.rms_coeff) * (x * x)) + 1e-10) <;>
      simp [hclosed, hc]

/-- Concrete open gate used to instantiate the C6 theorem. -/
def gateOpenExample : NoiseGate :=
  { threshold_db := -300
    attack_coeff := 0
    release_coeff := 0
    envelope := 0
    envelope_squared := 0
    rms_coeff := 0
    sample_rate := 48000
    is_open := true }

/-- Concrete closed gate used to instantiate the C6 theorem. -/
def gateClosedExample : NoiseGate :=
  { gateOpenExample with is_open := false }

lemma logb_ten_em10 : Real.logb 10 (1e-10) = -10 := by
  have h10 : ((10 : ℝ) ^ (-10 : ℝ)) = 1e-10 := by
    rw [show (-10 : ℝ) = ((-10 : ℤ) : ℝ) by norm_num, Real.rpow_intCast]
    norm_num
  rw [← h10, Real.logb_rpow (by norm_num) (by norm_num)]

lemma gateOpenExample_level : gateOpenExample.threshold_db - 3
    ≤ gateOpenExample.level_db_after 0 := by
  unfold NoiseGate.level_db_after gateOpenExample
  dsimp only
  rw [show (0 : ℝ) * 0 + (1 - 0) * (0 * 0) = 0 by ring, Real.sqrt_zero,
    zero_add, logb_ten_em10]
  norm_num

/-- C6 witness: the open example gate stays open on a zero sample, and the
closed example gate's opening condition is the threshold comparison. -/
theorem gate_hysteresis_and_initial_state_witness :
    ((gateOpenExample.process_sample 0).1).is_open = true ∧
    (((gateClosedExample.process_sample 0).1).is_open = true ↔
      gateClosedExample.threshold_db ≤ gateClosedExample.level_db_after 0) :=
  ⟨gate_hysteresis_and_initial_state.1 gateOpenExample 0 rfl
      gateOpenExample_level,
    gate_hysteresis_and_initial_state.2.1 gateClosedExample 0 rfl⟩

lemma env_step_mem (c t e : ℝ) (hc0 : 0 ≤ c) (hc1 : c ≤ 1)
    (ht0 : 0 ≤ t) (ht1 : t ≤ 1) (he0 : 0 ≤ e) (he1 : e ≤ 1) :
    0 ≤ c * e + (1 - c) * t ∧ c * e + (1 - c) * t ≤ 1 := by
  constructor <;> nlinarith

lemma time_constant_coeff_mem (t s : ℝ) (ht : 0 < t) (hs : 0 < s) :
    0 ≤ NoiseGate.time_constant_to_coeff t s ∧
      NoiseGate.time_constant_to_coeff t s ≤ 1 := by
  unfold NoiseGate.time_constant_to_coeff
  dsimp only
  refine ⟨(Real.exp_pos _).le, Real.exp_le_one_iff.mpr ?_⟩
  have h1 : 0 ≤ 1 / (t / 1000 * s) := by positivity
  rw [neg_div]
  linarith

lemma process_sample_step (g : NoiseGate) (x : ℝ)
    (ha0 : 0 ≤ g.attack_coeff) (ha1 : g.attack_coeff ≤ 1)
    (hr0 : 0 ≤ g.release_coeff) (hr1 : g.release_coeff ≤ 1)
    (he0 : 0 ≤ g.envelope) (he1 : g.envelope ≤ 1) :
    (0 ≤ ((g.process_sample x).1).envelope ∧
      ((g.process_sample x).1).envelope ≤ 1) ∧
    (g.process_sample x).2 = x * ((g.process_sample x).1).envelope ∧
    ((g.process_sample x).1).attack_coeff = g.attack_coeff ∧
    ((g.process_sample x).1).release_coeff = g.release_coeff := by
  unfold NoiseGate.process_sample
  dsimp only
  refine ⟨?_, rfl, rfl, rfl⟩
  have hcoeff : ∀ t : ℝ,
      0 ≤ (if g.envelope < t then g.attack_coeff else g.release_coeff) ∧
      (if g.envelope < t then g.attack_coeff else g.release_coeff) ≤ 1 := by
    intro t
    constructor <;> (split <;> assumption)
  have htarget : ∀ b : Bool,
      0 ≤ (if b then (1 : ℝ) else 0) ∧ (if b then (1 : ℝ) else 0) ≤ 1 := by
    intro b
    constructor <;> (cases b <;> norm_num)
  exact env_step_mem _ _ _ (hcoeff _).1 (hcoeff _).2 (htarget _).1
    (htarget _).2 he0 he1

lemma process_block_invariant (xs : List ℝ) : ∀ (g : NoiseGate),
    0 ≤ g.attack_coeff → g.attack_coeff ≤ 1 →
    0 ≤ g.release_coeff → g.release_coeff ≤ 1 →
    0 ≤ g.envelope → g.envelope ≤ 1 →
    (0 ≤ (g.process_block xs).1.envelope ∧
      (g.process_block xs).1.envelope ≤ 1) ∧
    (g.process_block xs).2.length = xs.length ∧
    ∀ i, i < xs.length → ∃ c, 0 ≤ c ∧ c ≤ 1 ∧
      (g.process_block xs).2.getD i 0 = xs.getD i 0 * c := by
  induction xs with
  | nil =>
      intro g ha0 ha1 hr0 hr1 he0 he1
      exact ⟨⟨he0, he1⟩, rfl, fun i hi => absurd hi (by simp)⟩
  | cons x xs ih =>
      intro g ha0 ha1 hr0 hr1 he0 he1
      obtain ⟨⟨hs0, hs1⟩, hout, hA, hR⟩ :=
        process_sample_step g x ha0 ha1 hr0 hr1 he0 he1
      have ih' := ih (g.process_sample x).1 (by rw [hA]; exact ha0)
        (by rw [hA]; exact ha1) (by rw [hR]; exact hr0)
        (by rw [hR]; exact hr1) hs0 hs1
      simp only [NoiseGate.process_block]
      refine ⟨ih'.1, by simpa using ih'.2.1, fun i hi => ?_⟩
      cases i with
      | zero =>
          exact ⟨((g.process_sample x).1).envelope, hs0, hs1,
            by simpa using hout⟩
      | succ j =>
          have hj : j < xs.length := by simpa using Nat.lt_of_succ_lt_succ hi
          obtain ⟨c, hc0, hc1, hc⟩ := ih'.2.2 j hj
          exact ⟨c, hc0, hc1, by simpa using hc⟩

/-- C10: for a gate constructed with positive attack, release and sample
rate, the gain envelope starts at 0 and after any processed block stays in
the closed interval 0..1, and every output sample is the corresponding
input sample scaled by such a factor. -/
theorem gate_envelope_invariant (t a r s : ℝ)
    (ha : 0 < a) (hr : 0 < r) (hs : 0 < s) (xs : List ℝ) :
    (NoiseGate.new t a r s).envelope = 0 ∧
    (0 ≤ ((NoiseGate.new t a r s).process_block xs).1.envelope ∧
      ((NoiseGate.new t a r s).process_block xs).1.envelope ≤ 1) ∧
    ((NoiseGate.new t a r s).process_block xs).2.length = xs.length ∧
    ∀ i, i < xs.length → ∃ c, 0 ≤ c ∧ c ≤ 1 ∧
      ((NoiseGate.new t a r s).process_block xs).2.getD i 0
        = xs.getD i 0 * c := by
  obtain ⟨hac0, hac1⟩ := time_constant_coeff_mem a s ha hs
  obtain ⟨hrc0, hrc1⟩ := time_constant_coeff_mem r s hr hs
  have h := process_block_invariant xs (NoiseGate.new t a r s)
    hac0 hac1 hrc0 hrc1 le_rfl zero_le_one
  exact ⟨rfl, h.1, h.2.1, h.2.2⟩

/-- C10 witness: instantiation at unit attack/release/sample-rate and a
single-sample block. -/
theorem gate_envelope_invariant_witness :
    (NoiseGate.new (-40) 1 1 1).envelope = 0 ∧
    (0 ≤ ((NoiseGate.new (-40) 1 1 1).process_block [1]).1.envelope ∧
      ((NoiseGate.new (-40) 1 1 1).process_block [1]).1.envelope ≤ 1) ∧
    ((NoiseGate.new (-40) 1 1 1).process_block [1]).2.length = [(1 : ℝ)].length ∧
    ∀ i, i < [(1 : ℝ)].length → ∃ c, 0 ≤ c ∧ c ≤ 1 ∧
      ((NoiseGate.new (-40) 1 1 1).process_block [1]).2.getD i 0
        = [(1 : ℝ)].getD i 0 * c :=
  gate_envelope_invariant (-40) 1 1 1 one_pos one_pos one_pos [1]

/-- FFT engine configuration (spectrum/fft.rs, `FftEngine`).  Only the
size is state; the planner and scratch buffers are implementation plumbing
of the external FFT library. -/
structure FftEngine where
  fft_size : ℕ

namespace FftEngine

/-- Constructor (spectrum/fft.rs, `FftEngine::new`). -/
def new (fft_size : ℕ) : FftEngine := { fft_size := fft_size }

/-- Number of frequency bins (spectrum/fft.rs, `FftEngine::num_bins`):
fft_size/2 + 1 for a real FFT. -/
def num_bins (e : FftEngine) : ℕ := e.fft_size / 2 + 1

/-- Bin index to normalized frequency (spectrum/fft.rs,
`FftEngine::bin_to_frequency`): `2.0 * bin as f64 / fft_size as f64`. -/
def bin_to_frequency (e : FftEngine) (bin : ℕ) : ℝ :=
  2 * (bin : ℝ) / (e.fft_size : ℝ)

/-- Frequency axis (spectrum/fft.rs, `FftEngine::frequency_axis`). -/
def frequency_axis (e : FftEngine) : List ℝ :=
  (List.range e.num_bins).map e.bin_to_frequency

/-- Normalized frequency to Hz (spectrum/fft.rs,
`FftEngine::normalized_to_hz`). -/
def normalized_to_hz (normalized_freq sample_rate : ℝ) : ℝ :=
  normalized_freq * sample_rate / 2

end FftEngine

/-- Analyzer configuration (spectrum/analysis.rs, `AnalyzerConfig`). -/
structure AnalyzerConfig where
  fft_size : ℕ
  window_type : WindowType
  sample_rate : ℝ
  apply_correction : Bool

/-- Window amplitude correction (spectrum/windowing.rs,
`window_correction_factor`): length / sum(window). -/
def window_correction_factor (window_type : WindowType) (length : ℕ) : ℝ :=
  let window := generate_window window_type length
  (length : ℝ) / window.sum

/-- Spectrum analyzer state (spectrum/analysis.rs, `SpectrumAnalyzer`). -/
structure SpectrumAnalyzer where
  config : AnalyzerConfig
  fft_engine : FftEngine
  correction_factor : ℝ

namespace SpectrumAnalyzer

/-- Constructor (spectrum/analysis.rs, `SpectrumAnalyzer::new`). -/
def new (config : AnalyzerConfig) : SpectrumAnalyzer :=
  { config := config
    fft_engine := FftEngine.new config.fft_size
    correction_factor :=
      if config.apply_correction then
        window_correction_factor config.window_type config.fft_size
      else 1 }

/-- Frequency bins in Hz (spectrum/analysis.rs,
`SpectrumAnalyzer::frequency_bins_hz`). -/
def frequency_bins_hz (a : SpectrumAnalyzer) : List ℝ :=
  a.fft_engine.frequency_axis.map fun f =>
    FftEngine.normalized_to_hz f a.config.sample_rate

/-- Normalized frequency bins (spectrum/analysis.rs,
`SpectrumAnalyzer::frequency_bins_normalized`). -/
def frequency_bins_normalized (a : SpectrumAnalyzer) : List ℝ :=
  a.fft_engine.frequency_axis

/-- Bin count (spectrum/analysis.rs, `SpectrumAnalyzer::num_bins`). -/
def num_bins (a : SpectrumAnalyzer) : ℕ := a.fft_engine.num_bins

end SpectrumAnalyzer

/-- Concrete analyzer with fft_size = 4 used for the C7 counterexample. -/
def analyzerExample : SpectrumAnalyzer :=
  SpectrumAnalyzer.new
    { fft_size := 4
      window_type := WindowType.Rectangular
      sample_rate := 48000
      apply_correction := false }

/-- C7 counterexample: with fft_size = 4 the normalized frequency of bin 1
is 2·1/4 = 1/2, not 1/4 = k/fft_size as the claim states. -/
theorem frequency_bins_counterexample :
    analyzerExample.frequency_bins_normalized.getD 1 0 = 1 / 2 ∧
    ¬ analyzerExample.frequency_bins_normalized.getD 1 0 = 1 / 4 := by
  have h : analyzerExample.frequency_bins_normalized.getD 1 0 = 1 / 2 := by
    unfold analyzerExample SpectrumAnalyzer.frequency_bins_normalized
      SpectrumAnalyzer.new FftEngine.frequency_axis FftEngine.new
      FftEngine.num_bins
    dsimp only
    rw [getD_range_map _ _ _ (by norm_num)]
    unfold FftEngine.bin_to_frequency
    norm_num
  exact ⟨h, by rw [h]; norm_num⟩

/-- C7 amended: the analyzer exposes fft_size/2 + 1 bins; bin k maps to the
normalized frequency 2k/fft_size (equivalently k/(fft_size/2), so that the
Nyquist bin k = fft_size/2 maps to 1, not k/fft_size), and the Hz axis is
the normalized axis times sample_rate/2. -/
theorem frequency_bins_mapping (c : AnalyzerConfig) (k : ℕ) :
    (SpectrumAnalyzer.new c).num_bins = c.fft_size / 2 + 1 ∧
    (SpectrumAnalyzer.new c).frequency_bins_normalized.length
      = c.fft_size / 2 + 1 ∧
    (SpectrumAnalyzer.new c).frequency_bins_hz.length
      = c.fft_size / 2 + 1 ∧
    (k < c.fft_size / 2 + 1 →
      (SpectrumAnalyzer.new c).frequency_bins_normalized.getD k 0
          = 2 * (k : ℝ) / (c.fft_size : ℝ) ∧
      (SpectrumAnalyzer.new c).frequency_bins_hz.getD k 0
          = 2 * (k : ℝ) / (c.fft_size : ℝ) * c.sample_rate / 2) ∧
    (0 < c.fft_size → c.fft_size % 2 = 0 →
      (SpectrumAnalyzer.new c).frequency_bins_normalized.getD
        (c.fft_size / 2) 0 = 1) := by
  unfold SpectrumAnalyzer.new SpectrumAnalyzer.num_bins
    SpectrumAnalyzer.frequency_bins_normalized
    SpectrumAnalyzer.frequency_bins_hz FftEngine.frequency_axis
    FftEngine.new FftEngine.num_bins
  dsimp only
  refine ⟨rfl, by simp, by simp, fun hk => ?_, fun hpos heven => ?_⟩
  · rw [List.map_map, getD_range_map _ _ _ hk, getD_range_map _ _ _ hk]
    exact ⟨rfl, rfl⟩
  · have hk2 : c.fft_size / 2 < c.fft_size / 2 + 1 := by omega
    rw [getD_range_map _ _ _ hk2]
    unfold FftEngine.bin_to_frequency
    dsimp only
    obtain ⟨m, hm⟩ : ∃ m, c.fft_size = m + m := ⟨c.fft_size / 2, by omega⟩
    have hm0 : 0 < m := by omega
    have hmr : (0 : ℝ) < (m : ℝ) := by exact_mod_cast hm0
    rw [hm, show (m + m) / 2 = m from by omega]
    push_cast
    field_simp
    ring

/-- C7 witness: instantiation at fft_size = 4, bin k = 1. -/
theorem frequency_bins_mapping_witness :
    analyzerExample.frequency_bins_normalized.getD 1 0
        = 2 * ((1 : ℕ) : ℝ) / ((4 : ℕ) : ℝ) ∧
    analyzerExample.frequency_bins_hz.getD 1 0
        = 2 * ((1 : ℕ) : ℝ) / ((4 : ℕ) : ℝ) * (48000 : ℝ) / 2 :=
  (frequency_bins_mapping
    { fft_size := 4
      window_type := WindowType.Rectangular
      sample_rate := 48000
      apply_correction := false } 1).2.2.2.1 (by norm_num)

/-- The N-th root of unity raised to the (integer) exponent t, the basic
phase factor of the discrete Fourier transform. -/
def unitExp (N : ℕ) (t : ℤ) : ℂ :=
  Complex.exp (2 * Real.pi * Complex.I * (t : ℂ) / (N : ℂ))

/-- Forward DFT as computed by the external rustfft library
(`FftPlanner::plan_fft_forward`): X[k] = Σ x[j]·e^(−2πi·jk/N),
unnormalized. -/
def dft (N : ℕ) (x : ℕ → ℂ) (k : ℕ) : ℂ :=
  ∑ j ∈ Finset.range N, x j * unitExp N (-((j : ℤ) * (k : ℤ)))

/-- Inverse DFT as computed by rustfft (`plan_fft_inverse`):
x[j] = Σ X[k]·e^(2πi·jk/N), unnormalized (the caller scales by 1/N). -/
def idft (N : ℕ) (X : ℕ → ℂ) (j : ℕ) : ℂ :=
  ∑ k ∈ Finset.range N, X k * unitExp N ((j : ℤ) * (k : ℤ))

lemma unitExp_add (N : ℕ) (s t : ℤ) :
    unitExp N s * unitExp N t = unitExp N (s + t) := by
  unfold unitExp
  rw [← Complex.exp_add]
  congr 1
  push_cast
  ring

lemma unitExp_nat_pow (N : ℕ) (m : ℤ) (k : ℕ) :
    unitExp N ((k : ℤ) * m) = unitExp N m ^ k := by
  unfold unitExp
  rw [← Complex.exp_nat_mul]
  congr 1
  push_cast
  ring

lemma unitExp_int_dvd (N : ℕ) (hN : 0 < N) (c : ℤ) :
    unitExp N ((N : ℤ) * c) = 1 := by
  unfold unitExp
  have hNne : (N : ℂ) ≠ 0 := Nat.cast_ne_zero.mpr hN.ne'
  rw [show 2 * (Real.pi : ℂ) * Complex.I * (((N : ℤ) * c : ℤ) : ℂ) / (N : ℂ)
      = (c : ℂ) * (2 * (Real.pi : ℂ) * Complex.I) from by
    push_cast
    field_simp
    ring]
  exact Complex.exp_int_mul_two_pi_mul_I c

lemma two_pi_I_ne_zero' : (2 * (Real.pi : ℂ) * Complex.I) ≠ 0 :=
  mul_ne_zero
    (mul_ne_zero two_ne_zero (Complex.ofReal_ne_zero.mpr Real.pi_ne_zero))
    Complex.I_ne_zero

lemma unitExp_ne_one (N : ℕ) (hN : 0 < N) (m : ℤ) (hm : ¬ (N : ℤ) ∣ m) :
    unitExp N m ≠ 1 := by
  intro h1
  obtain ⟨n, hn⟩ := Complex.exp_eq_one_iff.mp h1
  apply hm
  have hNne : (N : ℂ) ≠ 0 := Nat.cast_ne_zero.mpr hN.ne'
  have hn' : (2 * (Real.pi : ℂ) * Complex.I) * ((m : ℂ) / (N : ℂ))
      = (2 * (Real.pi : ℂ) * Complex.I) * (n : ℂ) := by
    rw [← mul_div_assoc]
    rw [show (2 * (Real.pi : ℂ) * Complex.I) * (m : ℂ) / (N : ℂ)
        = 2 * (Real.pi : ℂ) * Complex.I * (m : ℂ) / (N : ℂ) from by ring]
    rw [hn]
    ring
  have h4 := mul_left_cancel₀ two_pi_I_ne_zero' hn'
  rw [div_eq_iff hNne] at h4
  have h5 : m = n * (N : ℤ) := by exact_mod_cast h4
  exact ⟨n, by rw [h5]; ring⟩

lemma sum_unitExp (N : ℕ) (hN : 0 < N) (m : ℤ) :
    ∑ k ∈ Finset.range N, unitExp N ((k : ℤ) * m)
      = if (N : ℤ) ∣ m then (N : ℂ) else 0 := by
  rw [Finset.sum_congr rfl fun k _ => unitExp_nat_pow N m k]
  by_cases hdvd : (N : ℤ) ∣ m
  · obtain ⟨c, rfl⟩ := hdvd
    rw [if_pos ⟨c, rfl⟩, unitExp_int_dvd N hN c]
    simp
  · rw [if_neg hdvd, geom_sum_eq (unitExp_ne_one N hN m hdvd)]
    have hpow : unitExp N m ^ N = 1 := by
      rw [← unitExp_nat_pow]
      exact unitExp_int_dvd N hN m
    rw [hpow]
    simp

/-- Pointwise multiplication of DFTs followed by the inverse DFT computes
(N times) the linear convolution, provided both sequences fit in the
transform without wrap-around (n + M − 1 ≤ N) and the output index lies in
the first block. -/
lemma idft_dft_mul_dft (N n M : ℕ) (hN : 0 < N) (hnN : n ≤ N) (hMN : M ≤ N)
    (hnM : n + M ≤ N + 1) (xc hc : ℕ → ℂ)
    (hx : ∀ a, n ≤ a → xc a = 0) (hh : ∀ b, M ≤ b → hc b = 0)
    (j : ℕ) (hj : j < n) :
    idft N (fun k => dft N xc k * dft N hc k) j
      = (N : ℂ) * ∑ b ∈ Finset.range M,
          hc b * (if b ≤ j then xc (j - b) else 0) := by
  unfold idft dft
  have hterm : ∀ k ∈ Finset.range N,
      ((∑ a ∈ Finset.range N, xc a * unitExp N (-((a : ℤ) * (k : ℤ)))) *
        (∑ b ∈ Finset.range N, hc b * unitExp N (-((b : ℤ) * (k : ℤ))))) *
          unitExp N ((j : ℤ) * (k : ℤ))
      = ∑ a ∈ Finset.range N, ∑ b ∈ Finset.range N,
          xc a * hc b * unitExp N ((k : ℤ) * ((j : ℤ) - a - b)) := by
    intro k _
    rw [Finset.sum_mul_sum, Finset.sum_mul]
    refine Finset.sum_congr rfl fun a _ => ?_
    rw [Finset.sum_mul]
    refine Finset.sum_congr rfl fun b _ => ?_
    rw [show xc a * unitExp N (-((a : ℤ) * (k : ℤ))) *
          (hc b * unitExp N (-((b : ℤ) * (k : ℤ)))) *
          unitExp N ((j : ℤ) * (k : ℤ))
        = xc a * hc b * (unitExp N (-((a : ℤ) * (k : ℤ))) *
            unitExp N (-((b : ℤ) * (k : ℤ))) *
            unitExp N ((j : ℤ) * (k : ℤ))) from by ring,
      unitExp_add, unitExp_add,
      show -((a : ℤ) * (k : ℤ)) + -((b : ℤ) * (k : ℤ)) + (j : ℤ) * (k : ℤ)
        = (k : ℤ) * ((j : ℤ) - a - b) from by ring]
  rw [Finset.sum_congr rfl hterm, Finset.sum_comm,
    Finset.sum_congr rfl fun a _ => Finset.sum_comm,
    Finset.sum_congr rfl fun a _ => Finset.sum_congr rfl fun b _ =>
      (by rw [← Finset.mul_sum, sum_unitExp N hN] :
        ∑ k ∈ Finset.range N,
            xc a * hc b * unitExp N ((k : ℤ) * ((j : ℤ) - a - b))
          = xc a * hc b *
              (if (N : ℤ) ∣ ((j : ℤ) - a - b) then (N : ℂ) else 0)),
    Finset.sum_comm]
  rw [← Finset.sum_subset (Finset.range_subset.mpr hMN)
    (fun b _ hbM => Finset.sum_eq_zero fun a _ => by
      rw [hh b (by simpa using hbM)]
      ring)]
  have hinner : ∀ b, b < M →
      (∑ a ∈ Finset.range N,
          xc a * hc b * (if (N : ℤ) ∣ ((j : ℤ) - a - b) then (N : ℂ) else 0))
        = (N : ℂ) * (hc b * (if b ≤ j then xc (j - b) else 0)) := by
    intro b hbM
    by_cases hbj : b ≤ j
    · rw [if_pos hbj]
      rw [Finset.sum_eq_single_of_mem (j - b)
        (Finset.mem_range.mpr (by omega))
        (fun a _ hne => ?_)]
      · have hd0 : (j : ℤ) - ((j - b : ℕ) : ℤ) - (b : ℤ) = 0 := by omega
        rw [hd0, if_pos (dvd_zero _)]
        ring
      · by_cases hxa : n ≤ a
        · rw [hx a hxa]
          ring
        · push_neg at hxa
          have hdvd : ¬ (N : ℤ) ∣ ((j : ℤ) - a - b) := by
            intro hd
            have hd0 : (j : ℤ) - a - b = 0 :=
              Int.eq_zero_of_abs_lt_dvd hd (by
                rw [abs_lt]
                omega)
            exact hne (by omega)
          rw [if_neg hdvd]
          ring
    · rw [if_neg hbj, mul_zero, mul_zero]
      refine Finset.sum_eq_zero fun a _ => ?_
      by_cases hxa : n ≤ a
      · rw [hx a hxa]
        ring
      · push_neg at hxa
        have hdvd : ¬ (N : ℤ) ∣ ((j : ℤ) - a - b) := by
          intro hd
          have hd0 : (j : ℤ) - a - b = 0 :=
            Int.eq_zero_of_abs_lt_dvd hd (by
              rw [abs_lt]
              omega)
          omega
        rw [if_neg hdvd]
        ring
  rw [Finset.mul_sum]
  exact Finset.sum_congr rfl fun b hb => hinner b (Finset.mem_range.mp hb)

lemma getD_concat_length (l : List ℝ) (a : ℝ) :
    (l ++ [a]).getD l.length 0 = a := by
  rw [List.getD_eq_getElem _ _ (by simp)]
  simp

lemma getD_replicate_zero (k i : ℕ) :
    (List.replicate k (0 : ℝ)).getD i 0 = 0 := by
  rcases lt_or_ge i k with h | h
  · rw [List.getD_eq_getElem _ _ (by simpa using h)]
    simp
  · rw [List.getD_eq_default _ _ (by simpa using h)]

/-- Ring-buffer invariant of the time-domain FIR filter: after the samples
of `past` have been processed, the cursor is at `past.length mod M` and the
slot d samples back holds the d-th most recent input (zero if fewer than d
samples were seen). -/
def FirInv (h : List ℝ) (past : List ℝ) (f : FirFilter) : Prop :=
  f.coefficients = h ∧ f.length = h.length ∧
  f.cursor = past.length % h.length ∧
  ∀ d, 1 ≤ d → d ≤ h.length →
    f.state_buffer ((past.length + h.length - d) % h.length)
      = if d ≤ past.length then past.getD (past.length - d) 0 else 0

lemma fir_inv_new (h : List ℝ) : FirInv h [] (FirFilter.new h) := by
  refine ⟨rfl, rfl, by simp [FirFilter.new], fun d hd1 hd2 => ?_⟩
  rw [if_neg (by simp; omega)]
  rfl

lemma slot_ne_of_lt (L M e : ℕ) (he1 : 1 ≤ e) (he2 : e < M) :
    (L + e) % M ≠ L % M := by
  intro heq
  have h2 : e ≡ 0 [MOD M] := Nat.ModEq.add_left_cancel' L
    (show L + e ≡ L + 0 [MOD M] from by simpa [Nat.ModEq] using heq)
  have h3 : M ∣ e := Nat.modEq_zero_iff_dvd.mp h2
  exact absurd (Nat.le_of_dvd (by omega) h3) (by omega)

lemma fir_process_sample_inv (h : List ℝ) (hlen : 0 < h.length)
    (past : List ℝ) (f : FirFilter) (hf : FirInv h past f) (x : ℝ) :
    FirInv h (past ++ [x]) (f.process_sample x).1 ∧
    (f.process_sample x).2
      = ∑ k ∈ Finset.range h.length, h.getD k 0 *
          (if k ≤ past.length
           then (past ++ [x]).getD (past.length - k) 0 else 0) := by
  obtain ⟨hco, hle, hcur, hbuf⟩ := hf
  have hgetlast : (past ++ [x]).getD past.length 0 = x := getD_concat_length past x
  unfold FirFilter.process_sample
  have hLlen : (past ++ [x]).length = past.length + 1 := by simp
  refine ⟨⟨hco, hle, ?_, fun d hd1 hd2 => ?_⟩, ?_⟩
  · dsimp only
    rw [hLlen, hle, hcur, Nat.mod_add_mod]
  · dsimp only
    rw [hLlen]
    rcases eq_or_lt_of_le hd1 with hd | hd
    · subst hd
      rw [show past.length + 1 + h.length - 1 = past.length + h.length
          from by omega, Nat.add_mod_right, hcur, if_pos rfl,
        if_pos (by omega),
        show past.length + 1 - 1 = past.length from by omega, hgetlast]
    · have hb := hbuf (d - 1) (by omega) (by omega)
      rw [show past.length + h.length - (d - 1)
          = past.length + (h.length - (d - 1)) from by omega] at hb
      rw [show past.length + 1 + h.length - d
          = past.length + (h.length - (d - 1)) from by omega]
      rw [hcur, if_neg (slot_ne_of_lt _ _ _ (by omega) (by omega)), hb]
      by_cases hdl : d ≤ past.length + 1
      · rw [if_pos hdl, if_pos (by omega),
          show past.length + 1 - d = past.length - (d - 1) from by omega,
          List.getD_append _ _ _ _ (by omega)]
      · rw [if_neg hdl, if_neg (by omega)]
  · dsimp only
    rw [hco, hle]
    refine Finset.sum_congr rfl fun k hk => ?_
    have hkM : k < h.length := Finset.mem_range.mp hk
    congr 1
    rw [hcur, show past.length % h.length + h.length - k
        = past.length % h.length + (h.length - k) from by omega,
      Nat.mod_add_mod]
    rcases Nat.eq_zero_or_pos k with rfl | hk1
    · rw [show h.length - 0 = h.length from by omega, Nat.add_mod_right,
        if_pos rfl, if_pos (by omega), Nat.sub_zero, hgetlast]
    · rw [if_neg (slot_ne_of_lt _ _ _ (by omega) (by omega))]
      have hb := hbuf k (by omega) (by omega)
      rw [show past.length + h.length - k
          = past.length + (h.length - k) from by omega] at hb
      rw [hb]
      by_cases hkL : k ≤ past.length
      · rw [if_pos hkL, if_pos hkL, List.getD_append _ _ _ _ (by omega)]
      · rw [if_neg hkL, if_neg hkL]

lemma fir_process_block_inv (h : List ℝ) (hlen : 0 < h.length)
    (xs : List ℝ) : ∀ (past : List ℝ) (f : FirFilter), FirInv h past f →
    FirInv h (past ++ xs) (f.process_block xs).1 ∧
    (f.process_block xs).2.length = xs.length ∧
    ∀ j, j < xs.length →
      (f.process_block xs).2.getD j 0
        = ∑ k ∈ Finset.range h.length, h.getD k 0 *
            (if k ≤ past.length + j
             then (past ++ xs).getD (past.length + j - k) 0 else 0) := by
  induction xs with
  | nil =>
      intro past f hf
      exact ⟨by simpa using hf, rfl, fun j hj => absurd hj (by simp)⟩
  | cons x xs ih =>
      intro past f hf
      obtain ⟨hinv, hout⟩ := fir_process_sample_inv h hlen past f hf x
      obtain ⟨hinv', hlen', hout'⟩ := ih (past ++ [x]) (f.process_sample x).1 hinv
      simp only [FirFilter.process_block]
      refine ⟨?_, ?_, ?_⟩
      · rw [show past ++ x :: xs = (past ++ [x]) ++ xs from by simp]
        exact hinv'
      · simpa using hlen'
      · intro j hj
        cases j with
        | zero =>
            rw [List.getD_cons_zero, hout]
            refine Finset.sum_congr rfl fun k hk => ?_
            by_cases hkL : k ≤ past.length
            · rw [if_pos hkL, if_pos (by omega),
                show past.length + 0 - k = past.length - k from by omega,
                show past ++ x :: xs = (past ++ [x]) ++ xs from by simp,
                List.getD_append (past ++ [x]) xs 0 (past.length - k)
                  (by simp; omega)]
            · rw [if_neg hkL, if_neg (by omega)]
        | succ i =>
            have hi : i < xs.length := by
              simp only [List.length_cons] at hj
              omega
            rw [List.getD_cons_succ, hout' i hi,
              show (past ++ [x]).length = past.length + 1 from by simp,
              show (past ++ [x]) ++ xs = past ++ x :: xs from by simp,
              show past.length + 1 + i = past.length + (i + 1) from by omega]

lemma fir_first_block (h : List ℝ) (hlen : 0 < h.length) (x : List ℝ)
    (j : ℕ) (hj : j < x.length) :
    ((FirFilter.new h).process_block x).2.getD j 0
      = ∑ k ∈ Finset.range h.length, h.getD k 0 *
          (if k ≤ j then x.getD (j - k) 0 else 0) := by
  have hres := (fir_process_block_inv h hlen x [] (FirFilter.new h)
    (fir_inv_new h)).2.2 j hj
  simpa using hres

/-- Rust `usize::next_power_of_two`: the smallest power of two that is
greater than or equal to the argument (1 for 0). -/
def nextPowerOfTwo (n : ℕ) : ℕ := 2 ^ Nat.clog 2 n

lemma le_nextPowerOfTwo (n : ℕ) : n ≤ nextPowerOfTwo n :=
  Nat.le_pow_clog one_lt_two n

lemma nextPowerOfTwo_pos (n : ℕ) : 0 < nextPowerOfTwo n :=
  Nat.pos_pow_of_pos _ (by norm_num)

/-- Zero-padded complex view of a real sample vector: entry i is the i-th
sample for i < n and zero beyond, as built by the buffer-filling loops in
filters/fast_fir.rs. -/
def padComplex (n : ℕ) (v : List ℝ) : ℕ → ℂ := fun i =>
  if i < n then ((v.getD i 0 : ℝ) : ℂ) else 0

/-- FFT overlap-add filter state (filters/fast_fir.rs, `FastFirFilter`).
The FFT planners and scratch buffers are implementation plumbing of the
external rustfft library, whose transforms are modelled by `dft`/`idft`. -/
structure FastFirFilter where
  h_fft : List ℂ
  fft_size : ℕ
  block_size : ℕ
  filter_length : ℕ
  overlap : List ℝ

namespace FastFirFilter

/-- Constructor (filters/fast_fir.rs, `FastFirFilter::new`): fft size is
the next power of two at or above block_size + filter_length − 1; the
zero-padded coefficients are transformed once; the overlap tail of length
filter_length − 1 starts zeroed. -/
def new (coefficients : List ℝ) (block_size : ℕ) : FastFirFilter :=
  let filter_length := coefficients.length
  let min_fft_size := block_size + filter_length - 1
  let fft_size := nextPowerOfTwo min_fft_size
  let h_time : ℕ → ℂ := padComplex filter_length coefficients
  let h_fft := (List.range fft_size).map (dft fft_size h_time)
  { h_fft := h_fft
    fft_size := fft_size
    block_size := block_size
    filter_length := filter_length
    overlap := List.replicate (filter_length - 1) 0 }

/-- Overlap-add block processing (filters/fast_fir.rs,
`FastFirFilter::process_block`): truncate the input to the block size,
zero-pad to the fft size, forward transform, multiply by the cached
coefficient spectrum, inverse transform, scale by 1/N, add the stored
tail into the first samples, then save the next tail. -/
def process_block (f : FastFirFilter) (input : List ℝ) :
    FastFirFilter × List ℝ :=
  let n := min input.length f.block_size
  let input_padded : ℕ → ℂ := padComplex n input
  let spectrum : ℕ → ℂ := fun k =>
    dft f.fft_size input_padded k * f.h_fft.getD k 0
  let time_out : ℕ → ℂ := fun j => idft f.fft_size spectrum j
  let scale : ℝ := 1 / (f.fft_size : ℝ)
  let output := (List.range n).map fun i =>
    (time_out i).re * scale +
      (if i < f.overlap.length then f.overlap.getD i 0 else 0)
  let overlap := (List.range (f.filter_length - 1)).map fun i =>
    if n + i < f.fft_size then (time_out (n + i)).re * scale else 0
  ({ f with overlap := overlap }, output)

/-- State reset (filters/fast_fir.rs, `FastFirFilter::reset`): clears the
overlap tail only. -/
def reset (f : FastFirFilter) : FastFirFilter :=
  { f with overlap := f.overlap.map fun _ => 0 }

end FastFirFilter

lemma getD_range_map_c (f : ℕ → ℂ) (m i : ℕ) (hi : i < m) :
    ((List.range m).map f).getD i 0 = f i := by
  have hlen : i < ((List.range m).map f).length := by simpa using hi
  rw [List.getD_eq_getElem _ _ hlen]
  simp

lemma idft_congr (N : ℕ) (X Y : ℕ → ℂ) (hXY : ∀ k, k < N → X k = Y k)
    (j : ℕ) : idft N X j = idft N Y j :=
  Finset.sum_congr rfl fun k hk => by rw [hXY k (Finset.mem_range.mp hk)]

lemma fast_fir_first_block (h : List ℝ) (bs : ℕ) (x : List ℝ)
    (hM : 0 < h.length) (hxb : x.length ≤ bs) (j : ℕ) (hj : j < x.length) :
    ((FastFirFilter.new h bs).process_block x).2.getD j 0
      = ∑ k ∈ Finset.range h.length, h.getD k 0 *
          (if k ≤ j then x.getD (j - k) 0 else 0) := by
  have hbs1 : 1 ≤ bs := by omega
  have hNge : bs + h.length - 1 ≤ nextPowerOfTwo (bs + h.length - 1) :=
    le_nextPowerOfTwo _
  have hN : 0 < nextPowerOfTwo (bs + h.length - 1) := nextPowerOfTwo_pos _
  have hn : min x.length bs = x.length := Nat.min_eq_left hxb
  unfold FastFirFilter.process_block FastFirFilter.new
  dsimp only
  rw [hn]
  rw [getD_range_map _ _ _ hj]
  rw [getD_replicate_zero, ite_self, add_zero]
  rw [idft_congr (nextPowerOfTwo (bs + h.length - 1))
    (fun k => dft (nextPowerOfTwo (bs + h.length - 1)) (padComplex x.length x) k *
      ((List.range (nextPowerOfTwo (bs + h.length - 1))).map
        (dft (nextPowerOfTwo (bs + h.length - 1))
          (padComplex h.length h))).getD k 0)
    (fun k => dft (nextPowerOfTwo (bs + h.length - 1)) (padComplex x.length x) k *
      dft (nextPowerOfTwo (bs + h.length - 1)) (padComplex h.length h) k)
    (fun k hk => by dsimp only; rw [getD_range_map_c _ _ _ hk]) j]
  rw [idft_dft_mul_dft (nextPowerOfTwo (bs + h.length - 1)) x.length h.length
    hN (by omega) (by omega) (by omega)
    (padComplex x.length x) (padComplex h.length h)
    (fun a ha => by unfold padComplex; rw [if_neg (by omega)])
    (fun b hb => by unfold padComplex; rw [if_neg (by omega)]) j hj]
  have hsum_cast : (∑ b ∈ Finset.range h.length, padComplex h.length h b *
      (if b ≤ j then padComplex x.length x (j - b) else 0))
      = ((∑ k ∈ Finset.range h.length, h.getD k 0 *
          (if k ≤ j then x.getD (j - k) 0 else 0) : ℝ) : ℂ) := by
    rw [Complex.ofReal_sum]
    refine Finset.sum_congr rfl fun b hb => ?_
    have hbM := Finset.mem_range.mp hb
    unfold padComplex
    rw [if_pos hbM]
    by_cases hbj : b ≤ j
    · rw [if_pos hbj, if_pos hbj, if_pos (by omega : j - b < x.length)]
      push_cast
      ring
    · rw [if_neg hbj, if_neg hbj]
      push_cast
      ring
  rw [hsum_cast]
  rw [show ((nextPowerOfTwo (bs + h.length - 1) : ℕ) : ℂ)
      = (((nextPowerOfTwo (bs + h.length - 1) : ℕ) : ℝ) : ℂ) from by
    push_cast
    ring]
  rw [← Complex.ofReal_mul, Complex.ofReal_re]
  have hNr : ((nextPowerOfTwo (bs + h.length - 1) : ℕ) : ℝ) ≠ 0 :=
    Nat.cast_ne_zero.mpr hN.ne'
  field_simp

/-- C3: a FastFirFilter (FrequencyDomainFilter) and a FirFilter
(TimeDomainFilter) initialized with the same coefficients, both starting
from reset state, produce output samples agreeing within 1e-6 on an
identical input block (they agree exactly in real arithmetic). -/
theorem fast_fir_matches_time_domain (h : List ℝ) (bs : ℕ) (x : List ℝ)
    (hM : 0 < h.length) (hxb : x.length ≤ bs) (j : ℕ) (hj : j < x.length) :
    |((FastFirFilter.new h bs).process_block x).2.getD j 0
      - ((FirFilter.new h).process_block x).2.getD j 0| ≤ 1e-6 := by
  rw [fast_fir_first_block h bs x hM hxb j hj, fir_first_block h hM x j hj,
    sub_self, abs_zero]
  norm_num

/-- C3 witness: single-tap filter, block size 1, one-sample block. -/
theorem fast_fir_matches_time_domain_witness :
    |((FastFirFilter.new [1] 1).process_block [1]).2.getD 0 0
      - ((FirFilter.new [1]).process_block [1]).2.getD 0 0| ≤ 1e-6 :=
  fast_fir_matches_time_domain [1] 1 [1] (by simp) (by simp) 0 (by simp)

/-- Filter type selector (audio/processor.rs, `FilterType`). -/
inductive FilterType where
  | Bandpass
  | Lowpass
  | Highpass
deriving DecidableEq, Repr

/-- A user-filter chain slot holds either implementation
(audio/processor.rs, the `FilterTrait` boxes for `FirFilter` and
`FastFirFilter`). -/
inductive ChainFilter where
  | fir (f : FirFilter)
  | fast (f : FastFirFilter)

/-- Snapshot bundle (audio/processor.rs, `ProcessingResults`); the
fixed-size arrays are modelled as index functions plus valid lengths. -/
structure ProcessingResults where
  input_waveform : ℕ → ℝ
  filtered_waveform : ℕ → ℝ
  spectrum_magnitude : ℕ → ℝ
  spectrum_frequencies : ℕ → ℝ
  waveform_len : ℕ
  spectrum_len : ℕ
  sample_rate : ℝ

/-- Processor state (audio/processor.rs, `AudioProcessor`): the two-slot
filter chain (slot 0 = gate, slot 1 = user filter), gate flags and
parameters, the snapshot slot and the control flags.  Device handles and
the thread handle are external collaborators and are not state the claims
touch. -/
structure AudioProcessor where
  slot0 : Option NoiseGate
  slot1 : Option ChainFilter
  gate_enabled : Bool
  gate_params : ℝ × ℝ × ℝ
  results : Option ProcessingResults
  bypass : Bool
  monitoring : Bool
  sample_rate : ℝ

namespace AudioProcessor

/-- Constructor (audio/processor.rs, `AudioProcessor::new`). -/
def new : AudioProcessor :=
  { slot0 := none
    slot1 := none
    gate_enabled := false
    gate_params := (-40, 10, 100)
    results := none
    bypass := false
    monitoring := false
    sample_rate := 48000 }

/-- Noise-gate configuration (audio/processor.rs,
`AudioProcessor::configure_noise_gate`): stores the flag and parameters;
when enabled it creates a fresh `NoiseGate::new` and installs it at chain
position 0, when disabled it clears position 0. -/
def configure_noise_gate (p : AudioProcessor) (enabled : Bool)
    (threshold_db attack_ms release_ms : ℝ) : AudioProcessor :=
  let p1 := { p with
    gate_enabled := enabled
    gate_params := (threshold_db, attack_ms, release_ms) }
  if enabled then
    let gate := NoiseGate.new threshold_db attack_ms release_ms p.sample_rate
    { p1 with slot0 := some gate }
  else
    { p1 with slot0 := none }

/-- Filter design and installation (audio/processor.rs,
`AudioProcessor::design_filter`): designs coefficients for the requested
type, picks the FFT implementation for lengths above 128, installs the
new filter at chain position 1 and returns Ok(length, group delay).
There is no validation path that returns Err. -/
def design_filter (p : AudioProcessor) (omega_c1 omega_c2 delta_omega : ℝ)
    (window_type : WindowType) (filter_type : FilterType) :
    Except String (ℕ × ℝ) × AudioProcessor :=
  let coeffs :=
    match filter_type with
    | .Bandpass => design_bandpass_fir
        (FilterSpec.bandpass omega_c1 omega_c2 delta_omega window_type)
    | .Lowpass => design_lowpass_fir omega_c2 delta_omega window_type
    | .Highpass => design_highpass_fir omega_c1 delta_omega window_type
  let filter_length := coeffs.length
  let group_delay : ℝ := ((filter_length - 1 : ℕ) : ℝ) / 2
  let new_filter : ChainFilter :=
    if 128 < filter_length then .fast (FastFirFilter.new coeffs 2048)
    else .fir (FirFilter.new coeffs)
  (Except.ok (filter_length, group_delay), { p with slot1 := some new_filter })

/-- Snapshot retrieval (audio/processor.rs, `AudioProcessor::get_results`):
`results_guard.take()` returns the slot content and clears it. -/
def get_results (p : AudioProcessor) :
    Option ProcessingResults × AudioProcessor :=
  (p.results, { p with results := none })

/-- Snapshot publication by the processing thread (audio/processor.rs,
the `*results_guard = Some(result_buffer.clone())` store). -/
def publish_results (p : AudioProcessor) (r : ProcessingResults) :
    AudioProcessor :=
  { p with results := some r }

end AudioProcessor

/-- C9: take semantics of the snapshot slot: after a block publishes a
snapshot, the first `get_results` returns it and clears the slot, and a
second call with no intervening publication returns None. -/
theorem get_snapshot_take_semantics (p : AudioProcessor)
    (r : ProcessingResults) :
    ((p.publish_results r).get_results).1 = some r ∧
    ((((p.publish_results r).get_results).2).get_results).1 = none :=
  ⟨rfl, rfl⟩

/-- Concrete gate with accumulated envelope state (envelope 1/2, open). -/
def gateAccumExample : NoiseGate :=
  { threshold_db := -40
    attack_coeff := 0
    release_coeff := 0
    envelope := 1 / 2
    envelope_squared := 1 / 4
    rms_coeff := 0
    sample_rate := 48000
    is_open := true }

/-- Concrete processor whose enabled gate has accumulated state. -/
def processorGateExample : AudioProcessor :=
  { AudioProcessor.new with
      slot0 := some gateAccumExample
      gate_enabled := true }

/-- C1 counterexample: reconfiguring the enabled gate replaces it with a
fresh `NoiseGate::new`, so the accumulated envelope 1/2 and the open flag
are discarded (the new slot holds envelope 0 and a closed gate). -/
theorem configure_noise_gate_counterexample :
    Option.map NoiseGate.envelope processorGateExample.slot0 = some (1 / 2) ∧
    Option.map NoiseGate.is_open processorGateExample.slot0 = some true ∧
    Option.map NoiseGate.envelope
        ((processorGateExample.configure_noise_gate true (-40) 10 100).slot0)
      = some 0 ∧
    Option.map NoiseGate.is_open
        ((processorGateExample.configure_noise_gate true (-40) 10 100).slot0)
      = some false ∧
    (1 : ℝ) / 2 ≠ 0 :=
  ⟨rfl, rfl, rfl, rfl, by norm_num⟩

/-- C1 amended: `configure_noise_gate` with enabled = true always installs
a fresh gate (zero envelope state, closed), replacing any previous gate
rather than mutating it in place; the in-place setters on `NoiseGate`
itself do preserve accumulated state and the open flag, but
`configure_noise_gate` does not use them. -/
theorem configure_noise_gate_replaces_gate (p : AudioProcessor)
    (t a r : ℝ) :
    (p.configure_noise_gate true t a r).slot0
        = some (NoiseGate.new t a r p.sample_rate) ∧
    (p.configure_noise_gate true t a r).gate_enabled = true ∧
    (p.configure_noise_gate true t a r).gate_params = (t, a, r) ∧
    (NoiseGate.new t a r p.sample_rate).envelope = 0 ∧
    (NoiseGate.new t a r p.sample_rate).envelope_squared = 0 ∧
    (NoiseGate.new t a r p.sample_rate).is_open = false ∧
    (∀ (g : NoiseGate) (v : ℝ),
      (g.set_threshold v).envelope = g.envelope ∧
      (g.set_threshold v).envelope_squared = g.envelope_squared ∧
      (g.set_threshold v).is_open = g.is_open ∧
      (g.set_attack_time v).envelope = g.envelope ∧
      (g.set_attack_time v).envelope_squared = g.envelope_squared ∧
      (g.set_attack_time v).is_open = g.is_open ∧
      (g.set_release_time v).envelope = g.envelope ∧
      (g.set_release_time v).envelope_squared = g.envelope_squared ∧
      (g.set_release_time v).is_open = g.is_open) :=
  ⟨rfl, rfl, rfl, rfl, rfl, rfl,
    fun _ _ => ⟨rfl, rfl, rfl, rfl, rfl, rfl, rfl, rfl, rfl⟩⟩

/-- C2 counterexample: `design_filter` with reversed bandpass edges
(omega_p1 = 0.6 > omega_p2 = 0.4) still returns Ok((161, 80)); no
DesignError is ever produced. -/
theorem design_filter_counterexample :
    (0.4 : ℝ) < 0.6 ∧
    ((AudioProcessor.new).design_filter 0.6 0.4 (0.05 * Real.pi)
        WindowType.Hamming FilterType.Bandpass).1
      = Except.ok (161, (80 : ℝ)) := by
  refine ⟨by norm_num, ?_⟩
  unfold AudioProcessor.design_filter
  dsimp only
  have hlen : (design_bandpass_fir (FilterSpec.bandpass 0.6 0.4
      (0.05 * Real.pi) WindowType.Hamming)).length = 161 := by
    unfold design_bandpass_fir FilterSpec.bandpass
    dsimp only
    rw [length_range_map]
    exact calc_len_hamming
  rw [hlen]
  have hgd : ((161 - 1 : ℕ) : ℝ) / 2 = 80 := by norm_num
  rw [hgd]

/-- C2 amended: for every specification with positive transition width —
including invalid band-edge orderings — `design_filter` performs no
validation: it returns Ok with the tap count `calculate_filter_length`
and group delay (M−1)/2, and unconditionally replaces chain slot 1 with
the newly designed filter. -/
theorem design_filter_always_ok (p : AudioProcessor) (o1 o2 d : ℝ)
    (wt : WindowType) (ft : FilterType) (_hd : 0 < d) :
    (p.design_filter o1 o2 d wt ft).1
      = Except.ok (wt.calculate_filter_length d,
          ((wt.calculate_filter_length d - 1 : ℕ) : ℝ) / 2) ∧
    ∃ cf : ChainFilter, (p.design_filter o1 o2 d wt ft).2
      = { p with slot1 := some cf } := by
  unfold AudioProcessor.design_filter
  cases ft <;> dsimp only
  · have hlen : (design_bandpass_fir (FilterSpec.bandpass o1 o2 d wt)).length
        = wt.calculate_filter_length d := by
      unfold design_bandpass_fir FilterSpec.bandpass
      dsimp only
      rw [length_range_map]
    rw [hlen]
    exact ⟨rfl, _, rfl⟩
  · have hlen : (design_lowpass_fir o2 d wt).length
        = wt.calculate_filter_length d := by
      unfold design_lowpass_fir
      dsimp only
      rw [length_range_map]
    rw [hlen]
    exact ⟨rfl, _, rfl⟩
  · have hlen : (design_highpass_fir o1 d wt).length
        = wt.calculate_filter_length d := by
      unfold design_highpass_fir
      dsimp only
      rw [length_range_map]
    rw [hlen]
    exact ⟨rfl, _, rfl⟩

/-- C2 witness: instantiation at a lowpass design with Δω = 1. -/
theorem design_filter_always_ok_witness :
    ((AudioProcessor.new).design_filter 0.5 0.5 1 WindowType.Rectangular
        FilterType.Lowpass).1
      = Except.ok (WindowType.Rectangular.calculate_filter_length 1,
          ((WindowType.Rectangular.calculate_filter_length 1 - 1 : ℕ) : ℝ) / 2) ∧
    ∃ cf : ChainFilter,
      ((AudioProcessor.new).design_filter 0.5 0.5 1 WindowType.Rectangular
          FilterType.Lowpass).2
        = { AudioProcessor.new with slot1 := some cf } :=
  design_filter_always_ok AudioProcessor.new 0.5 0.5 1
    WindowType.Rectangular FilterType.Lowpass one_pos
